import Mathlib

/-!
Verification of the archive classification and password-cracking engine of
the 7zrpw repository (src/main.go), against its natural-language
specification.

The Go code is shallowly embedded: Go strings are Lean String values
(operated on through their character lists), the filesystem existence
probe (os.Stat) is an explicit oracle of type String/List Char to Bool,
and the outcome of the external 7z subprocess is an explicit event value.
Every definition mirrors the corresponding function in src/main.go; doc
comments name the source function.
-/

/-- Models Go strings.Contains: pat occurs as a contiguous substring of hay.
Uses the decidable infix predicate on character lists, which agrees with
byte-level substring search on the ASCII data handled here. -/
def containsSub (hay pat : List Char) : Bool :=
  decide (pat <:+: hay)

/-- String-level wrapper of containsSub, models strings.Contains(s, sub). -/
def strContains (s sub : String) : Bool :=
  containsSub s.toList sub.toList

/-- The apostrophe character, written via its code point. -/
def apos : Char := Char.ofNat 39

/-- The success marker testPassword (src/main.go) looks for in the captured
combined output of the 7z test subprocess. -/
def successMarker : String := "Everything is Ok"

/-- The fixed list of failure markers of testPassword (src/main.go), in the
order the source checks them.  The fourth entry is the 7z message
Can-not-open-as-archive, whose apostrophe is assembled explicitly. -/
def failureMarkers : List String :=
  ["Cannot open encrypted archive",
   "Data Error in encrypted file",
   "ERROR:",
   "Can" ++ String.mk [apos] ++ "t open as archive",
   "ERROR: Wrong password",
   "Wrong password",
   "Archives with Errors"]

/-- The countdown used by testPassword (src/main.go): 2 seconds. -/
def testTimeoutSeconds : Nat := 2

/-- What the driving select statement of testPassword observes: either the
7z subprocess terminated before the 2 second timer with the given captured
combined output, or the timer fired first (after which the subprocess is
killed and its output discarded). -/
inductive TestEvent where
  | completed (output : String)
  | timedOut
deriving DecidableEq

/-- Models the classification goroutine of testPassword (src/main.go): the
success marker is checked first, then the failure markers, and output with
neither marker is treated as success. -/
def classifyOutput (output : String) : Bool :=
  if strContains output successMarker then true
  else if failureMarkers.any (fun m => strContains output m) then false
  else true

/-- Models testPassword (src/main.go): on termination before the timer the
captured output is classified; if the 2 second timer fires first the
subprocess is killed and the attempt counts as accepted. -/
def testPassword : TestEvent → Bool
  | .completed output => classifyOutput output
  | .timedOut => true

/-- Models the candidate loop of crackArchive (src/main.go).  The accept
oracle is the outcome of testPassword for each candidate.  Returns the
found password (none models the final error return), the value of the Go
testedCount variable, and the sequence of dictionary candidates passed to
testPassword, in order. -/
def crackLoop (accept : String → Bool) : List String → Nat → Option String × Nat × List String
  | [], tested => (none, tested, [])
  | p :: rest, tested =>
    if accept p then (some p, tested + 1, [p])
    else
      let r := crackLoop accept rest (tested + 1)
      (r.1, r.2.1, p :: r.2.2)

/-- Models crackArchive (src/main.go): the empty password is probed first
(without touching testedCount); otherwise the dictionary candidates are
tried strictly in order.  The third component is the full sequence of
passwords passed to testPassword, empty probe included. -/
def crackArchive (accept : String → Bool) (passwords : List String) :
    Option String × Nat × List String :=
  if accept "" then (some "", 0, [""])
  else
    let r := crackLoop accept passwords 0
    (r.1, r.2.1, "" :: r.2.2)

theorem crackLoop_all_fail (accept : String → Bool) :
    ∀ (ps : List String) (t : Nat), (∀ p ∈ ps, accept p = false) →
      crackLoop accept ps t = (none, t + ps.length, ps) := by
  intro ps
  induction ps with
  | nil => intro t _; simp [crackLoop]
  | cons p rest ih =>
    intro t h
    have hp : accept p = false := h p (by simp)
    have hrest : ∀ q ∈ rest, accept q = false := fun q hq => h q (by simp [hq])
    simp [crackLoop, hp, ih (t + 1) hrest]
    omega

theorem crackLoop_first_hit (accept : String → Bool) :
    ∀ (pre : List String) (p : String) (suf : List String) (t : Nat),
      (∀ q ∈ pre, accept q = false) → accept p = true →
      crackLoop accept (pre ++ p :: suf) t = (some p, t + pre.length + 1, pre ++ [p]) := by
  intro pre
  induction pre with
  | nil => intro p suf t _ hp; simp [crackLoop, hp]
  | cons q rest ih =>
    intro p suf t h hp
    have hq : accept q = false := h q (by simp)
    have hrest : ∀ r ∈ rest, accept r = false := fun r hr => h r (by simp [hr])
    simp [crackLoop, hq, ih p suf (t + 1) hrest hp]
    omega

/-- C1: testPassword classifies exactly as claimed: termination with the
success marker (or with no known marker at all) is Accepted, termination
with a failure marker but no success marker is Rejected, and timer expiry
(after which the subprocess is killed) is Accepted.  Equivalently, the
only rejected events are completed outputs carrying a failure marker and
no success marker. -/
theorem testPassword_classification (ev : TestEvent) :
    testPassword ev = false ↔
      ∃ output, ev = .completed output ∧
        strContains output successMarker = false ∧
        (failureMarkers.any (fun m => strContains output m)) = true := by
  cases ev with
  | completed output =>
    constructor
    · intro h
      refine ⟨output, rfl, ?_, ?_⟩
      · by_contra hs
        have hs2 : strContains output successMarker = true := by
          cases hx : strContains output successMarker
          · exact absurd hx hs
          · rfl
        simp [testPassword, classifyOutput, hs2] at h
      · by_contra hf
        have hf2 : (failureMarkers.any (fun m => strContains output m)) = false := by
          cases hx : failureMarkers.any (fun m => strContains output m)
          · rfl
          · exact absurd hx hf
        simp [testPassword, classifyOutput, hf2] at h
    · rintro ⟨out2, heq, hs, hf⟩
      cases heq
      simp [testPassword, classifyOutput, hs, hf]
  | timedOut =>
    constructor
    · intro h; simp [testPassword] at h
    · rintro ⟨out2, heq, _, _⟩; exact absurd heq (by simp)

/-- C10: the success marker takes precedence over every failure marker:
any completed output containing the success marker is Accepted, whatever
else it contains, because the success check runs first. -/
theorem testPassword_success_precedence (output : String)
    (h : strContains output successMarker = true) :
    testPassword (.completed output) = true := by
  simp [testPassword, classifyOutput, h]

/-- Witness for C10: an output carrying both the success marker and
several failure markers is still Accepted. -/
theorem testPassword_success_precedence_witness :
    strContains "ERROR: Wrong password in Archives with Errors but Everything is Ok" successMarker = true ∧
    testPassword (.completed "ERROR: Wrong password in Archives with Errors but Everything is Ok") = true := by
  refine ⟨by decide, ?_⟩
  exact testPassword_success_precedence _ (by decide)

/-- C2: crackArchive probes the empty password first and returns it at once
when accepted, with no dictionary candidate tested; otherwise it returns
the first accepted dictionary candidate, having passed to testPassword
exactly the empty password, every candidate preceding the hit, and the hit
itself, and no later entries. -/
theorem crackArchive_first_accepted (accept : String → Bool) :
    (accept "" = true → ∀ ps : List String, crackArchive accept ps = (some "", 0, [""])) ∧
    (accept "" = false →
      ∀ (pre : List String) (p : String) (suf : List String),
        (∀ q ∈ pre, accept q = false) → accept p = true →
        crackArchive accept (pre ++ p :: suf) = (some p, pre.length + 1, "" :: (pre ++ [p]))) := by
  constructor
  · intro h ps; simp [crackArchive, h]
  · intro h pre p suf hpre hp
    simp [crackArchive, h, crackLoop_first_hit accept pre p suf 0 hpre hp]

/-- Witness for C2: with password hunter2 present after one failing entry,
exactly the empty probe, that entry and hunter2 are tested, and hunter2 is
returned; and with an archive accepting the empty password nothing from
the dictionary is tested. -/
theorem crackArchive_first_accepted_witness :
    crackArchive (fun s => s == "hunter2") ["abc", "hunter2", "later"] =
      (some "hunter2", 2, ["", "abc", "hunter2"]) ∧
    crackArchive (fun _ => true) ["abc"] = (some "", 0, [""]) := by
  constructor
  · have h := (crackArchive_first_accepted (fun s => s == "hunter2")).2 (by decide)
      ["abc"] "hunter2" ["later"] (by decide) (by decide)
    simpa using h
  · exact (crackArchive_first_accepted (fun _ => true)).1 rfl ["abc"]

/-- C3 counterexample: with a one-entry dictionary and no acceptable
password, crackArchive reaches exhaustion having recorded a tried-count of
1, not 1 + 1: the Go testedCount variable counts only dictionary
candidates, never the implicit empty probe. -/
theorem crackArchive_exhausted_count_counterexample :
    crackArchive (fun _ => false) ["a"] = (none, 1, ["", "a"]) ∧
    (crackArchive (fun _ => false) ["a"]).2.1 ≠ 1 + (["a"] : List String).length := by
  constructor
  · rfl
  · decide

/-- C3 (amended): when no candidate, the empty probe included, is accepted,
crackArchive returns the Exhausted outcome (no password, error), the
sequence passed to testPassword is the empty probe followed by the whole
dictionary, and the tried-count it carries equals the dictionary size: the
empty probe is performed but not counted. -/
theorem crackArchive_exhausted (accept : String → Bool) (ps : List String)
    (h0 : accept "" = false) (hall : ∀ p ∈ ps, accept p = false) :
    crackArchive accept ps = (none, ps.length, "" :: ps) := by
  simp [crackArchive, h0, crackLoop_all_fail accept ps 0 hall]

/-- Witness for C3 (amended): a two-entry dictionary with no acceptable
password yields Exhausted with tried-count 2 after testing the empty probe
and both entries. -/
theorem crackArchive_exhausted_witness :
    crackArchive (fun _ => false) ["a", "b"] = (none, 2, ["", "a", "b"]) := by
  exact crackArchive_exhausted (fun _ => false) ["a", "b"] rfl (by intro p _; rfl)

/-- Models Go unicode.IsSpace: the Unicode white-space code points that
strings.TrimSpace trims.  U+FEFF (the byte-order mark) is not among them,
exactly as in Go. -/
def goIsSpace (c : Char) : Bool :=
  c == ' ' || c == '\t' || c == '\n' || c == Char.ofNat 11 || c == Char.ofNat 12 ||
  c == '\r' || c == Char.ofNat 0x85 || c == Char.ofNat 0xA0 ||
  c == Char.ofNat 0x1680 || (0x2000 ≤ c.toNat && c.toNat ≤ 0x200A) ||
  c == Char.ofNat 0x2028 || c == Char.ofNat 0x2029 || c == Char.ofNat 0x202F ||
  c == Char.ofNat 0x205F || c == Char.ofNat 0x3000

/-- Models the dropCR step of bufio.ScanLines: a single trailing carriage
return of a scanned line is removed. -/
def dropCR (l : List Char) : List Char :=
  if l.getLast? = some '\r' then l.dropLast else l

/-- Accumulating core of bufio.ScanLines: splits on newline; the text after
the final newline forms a last token only when it is non-empty. -/
def scanLinesAux (cur : List Char) : List Char → List (List Char)
  | [] => if cur = [] then [] else [cur.reverse]
  | c :: rest =>
    if c = '\n' then cur.reverse :: scanLinesAux [] rest
    else scanLinesAux (c :: cur) rest

/-- Models the token sequence produced by bufio.Scanner with the ScanLines
split function, as used by readSmallFile and readLargeFile (src/main.go). -/
def scanLines (content : List Char) : List (List Char) :=
  (scanLinesAux [] content).map dropCR

/-- Models Go strings.TrimSpace: leading and trailing white space removed. -/
def trimSpaceChars (l : List Char) : List Char :=
  ((l.dropWhile goIsSpace).reverse.dropWhile goIsSpace).reverse

/-- Models readSmallFile (src/main.go 719-745): each scanned line is passed
through strings.TrimSpace and kept when non-empty.  readLargeFile
(src/main.go 748-793) applies the identical scanner and trimming, only
wrapped in a goroutine with a 30 second timeout, so this definition also
models its per-line behaviour.  No byte-order-mark removal and no GBK
re-decode appears on this path. -/
def readSmallFile (content : String) : List String :=
  (scanLines content.toList).filterMap (fun line =>
    let password := trimSpaceChars line
    if password = [] then none else some (String.mk password))

/-- C7: evaluation of the dictionary line reader at the failing input.  A
line consisting of a byte-order mark, the word secret, and a CRLF ending
yields the candidate with the byte-order mark still attached, not the bare
word secret: strings.TrimSpace does not trim U+FEFF, and the current read
path has no BOM stripping and no GBK fallback re-decode. -/
theorem readSmallFile_bom_not_stripped :
    readSmallFile ("﻿" ++ "secret\r\n") = [String.mk (Char.ofNat 0xFEFF :: "secret".toList)] ∧
    readSmallFile ("﻿" ++ "secret\r\n") ≠ ["secret"] := by
  constructor
  · rfl
  · decide

/-- All candidate strings inserted into the Go map passwordMap by
getAllPasswords (src/main.go 824-840): every password read from every
contributing dictionary file, with multiplicity. -/
def allDictPasswords (fileContents : List String) : List String :=
  (fileContents.map readSmallFile).flatten

/-- The Go statement for pass := range passwordMap enumerates the keys of
passwordMap in an unspecified (runtime-randomized) order.  A valid range
order is any duplicate-free enumeration of exactly the keys, that is of the
set of all candidates read from the dictionary files. -/
def mapRangeOrder (fileContents : List String) (order : List String) : Prop :=
  order.Nodup ∧ ∀ p, p ∈ order ↔ p ∈ allDictPasswords fileContents

/-- Models the dedup stage of getAllPasswords (src/main.go 846-851): the
uniquePasswords slice is built by appending each key in the range order, so
it is exactly that order. -/
def getAllPasswordsResult (_fileContents : List String) (order : List String) : List String :=
  order

/-- C4 counterexample: the candidate order is not a deterministic function
of the dictionary file contents.  For the single dictionary file with
lines a and b, both orders a-b and b-a are valid range orders of the Go
map, and the two runs of loading followed by the crack loop test the
candidates in different orders. -/
theorem getAllPasswords_order_not_deterministic :
    ¬ (∀ (contents o1 o2 : List String),
        mapRangeOrder contents o1 → mapRangeOrder contents o2 →
        (crackArchive (fun _ => false) (getAllPasswordsResult contents o1)).2.2 =
        (crackArchive (fun _ => false) (getAllPasswordsResult contents o2)).2.2) := by
  intro h
  have hall : allDictPasswords ["a\nb\n"] = ["a", "b"] := by decide
  have h1 : mapRangeOrder ["a\nb\n"] ["a", "b"] := by
    refine ⟨by decide, ?_⟩
    intro p; rw [hall]
  have h2 : mapRangeOrder ["a\nb\n"] ["b", "a"] := by
    refine ⟨by decide, ?_⟩
    intro p; rw [hall]; simp only [List.mem_cons]; tauto
  have := h ["a\nb\n"] ["a", "b"] ["b", "a"] h1 h2
  simp [getAllPasswordsResult, crackArchive, crackLoop] at this

/-- C4 (amended): the loaded candidate sequence is deterministic only up to
permutation: two runs over the same dictionary file contents load the same
set of candidates, and the crack loop of either run tests a permutation of
the candidates of the other, but the order itself is the unspecified Go
map range order. -/
theorem getAllPasswords_set_deterministic (contents o1 o2 : List String)
    (h1 : mapRangeOrder contents o1) (h2 : mapRangeOrder contents o2) :
    (getAllPasswordsResult contents o1).Perm (getAllPasswordsResult contents o2) ∧
    ((crackArchive (fun _ => false) (getAllPasswordsResult contents o1)).2.2).Perm
      ((crackArchive (fun _ => false) (getAllPasswordsResult contents o2)).2.2) := by
  have hperm : o1.Perm o2 := by
    refine (List.perm_ext_iff_of_nodup h1.1 h2.1).2 ?_
    intro p; rw [h1.2 p, h2.2 p]
  refine ⟨hperm, ?_⟩
  have e1 : (crackArchive (fun _ => false) o1).2.2 = "" :: o1 := by
    rw [crackArchive_exhausted (fun _ => false) o1 rfl (by intro p _; rfl)]
  have e2 : (crackArchive (fun _ => false) o2).2.2 = "" :: o2 := by
    rw [crackArchive_exhausted (fun _ => false) o2 rfl (by intro p _; rfl)]
  simpa [getAllPasswordsResult, e1, e2] using hperm.cons ""

/-- Witness for C4 (amended): the two valid range orders of the map built
from the dictionary file with lines a and b load permutations of each
other, as do the tested sequences of the corresponding crack runs. -/
theorem getAllPasswords_set_deterministic_witness :
    (getAllPasswordsResult ["a\nb\n"] ["a", "b"]).Perm
      (getAllPasswordsResult ["a\nb\n"] ["b", "a"]) ∧
    ((crackArchive (fun _ => false) (getAllPasswordsResult ["a\nb\n"] ["a", "b"])).2.2).Perm
      ((crackArchive (fun _ => false) (getAllPasswordsResult ["a\nb\n"] ["b", "a"])).2.2) := by
  have hall : allDictPasswords ["a\nb\n"] = ["a", "b"] := by decide
  refine getAllPasswords_set_deterministic ["a\nb\n"] ["a", "b"] ["b", "a"] ⟨by decide, ?_⟩ ⟨by decide, ?_⟩
  · intro p; rw [hall]
  · intro p; rw [hall]; simp only [List.mem_cons]; tauto

/-- Models strings.HasSuffix(content, newline) as used by
savePasswordToFile (src/main.go). -/
def endsWithNewline (s : String) : Bool :=
  ['\n'].isSuffixOf s.toList

/-- Models savePasswordToFile (src/main.go 971-1012) as a transformation of
the dictionary file contents: when strings.Contains finds the password
anywhere in the raw current content the file is left as it is; otherwise
the password plus a terminating newline is appended, preceded by a
separating newline when the current content is non-empty and does not end
in a newline. -/
def savePasswordToFile (password content : String) : String :=
  if strContains content password then content
  else
    let sep := if content ≠ "" ∧ endsWithNewline content = false then "\n" else ""
    content ++ sep ++ password ++ "\n"

/-- The line tokens of a dictionary file, as the scanner of the readers in
src/main.go produces them, repackaged as strings. -/
def linesOfFile (s : String) : List String :=
  (scanLines s.toList).map String.mk

theorem dropCR_shorter (l : List Char) : dropCR l <+: l := by
  unfold dropCR
  split
  · exact List.dropLast_prefix l
  · exact List.prefix_refl l

theorem dropCR_no_cr (l : List Char) (h : '\r' ∉ l) : dropCR l = l := by
  unfold dropCR
  split
  · rename_i hcr
    rcases List.mem_getLast?_eq_getLast hcr with ⟨hne, heq⟩
    exact absurd (heq ▸ List.getLast_mem hne) h
  · rfl

theorem mem_scanLinesAux_sub :
    ∀ (c cur x : List Char), x ∈ scanLinesAux cur c → x <:+: cur.reverse ++ c := by
  intro c
  induction c with
  | nil =>
    intro cur x hx
    simp only [scanLinesAux] at hx
    split at hx
    · simp at hx
    · simp at hx
      subst hx
      simp
  | cons a rest ih =>
    intro cur x hx
    by_cases ha : a = '\n'
    · subst ha
      simp only [scanLinesAux, if_pos rfl] at hx
      rcases List.mem_cons.1 hx with rfl | hx2
      · exact (List.prefix_append cur.reverse (Char.ofNat 10 :: rest)).isInfix
      · have h1 := ih [] x hx2
        simp only [List.reverse_nil, List.nil_append] at h1
        refine h1.trans ?_
        exact ((List.suffix_cons (Char.ofNat 10) rest).trans
          (List.suffix_append cur.reverse _)).isInfix
    · simp only [scanLinesAux, if_neg ha] at hx
      have h1 := ih (a :: cur) x hx
      simpa [List.append_assoc] using h1

theorem mem_scanLines_sub (content x : List Char) (h : x ∈ scanLines content) :
    x <:+: content := by
  rcases List.mem_map.1 h with ⟨y, hy, rfl⟩
  have h1 := mem_scanLinesAux_sub content [] y hy
  simp only [List.reverse_nil, List.nil_append] at h1
  exact (dropCR_shorter y).isInfix.trans h1

theorem trimSpaceChars_sub (l : List Char) : trimSpaceChars l <:+: l := by
  unfold trimSpaceChars
  have h1 : l.dropWhile goIsSpace <:+ l := List.dropWhile_suffix goIsSpace
  have h2 : (l.dropWhile goIsSpace).reverse.dropWhile goIsSpace <:+
      (l.dropWhile goIsSpace).reverse := List.dropWhile_suffix goIsSpace
  have h3 : ((l.dropWhile goIsSpace).reverse.dropWhile goIsSpace).reverse <+:
      l.dropWhile goIsSpace := by
    rw [← List.reverse_suffix]
    simpa using h2
  exact h3.isInfix.trans h1.isInfix

theorem mem_readSmallFile_sub (content p : String) (h : p ∈ readSmallFile content) :
    p.toList <:+: content.toList ∧ p ≠ "" := by
  unfold readSmallFile at h
  rcases List.mem_filterMap.1 h with ⟨line, hline, heq⟩
  by_cases he : trimSpaceChars line = []
  · simp [he] at heq
  · simp only [he, if_neg] at heq
    have hp : p.toList = trimSpaceChars line := by
      have := congrArg (fun o => o.map String.toList) heq
      simpa using this.symm
    constructor
    · rw [hp]
      exact (trimSpaceChars_sub line).trans (mem_scanLines_sub content.toList line hline)
    · intro hcon
      rw [hcon] at hp
      exact he hp.symm

theorem strContains_of_sub (s sub : String) (h : sub.toList <:+: s.toList) :
    strContains s sub = true := by
  simp only [strContains, containsSub, decide_eq_true_eq]
  exact h

theorem scanLinesAux_nil_eq (cur : List Char) :
    scanLinesAux cur [] = if cur = [] then [] else [cur.reverse] := rfl

theorem scanLinesAux_cons_eq (cur : List Char) (c : Char) (rest : List Char) :
    scanLinesAux cur (c :: rest) =
      if c = '\n' then cur.reverse :: scanLinesAux [] rest
      else scanLinesAux (c :: cur) rest := rfl

theorem scanLinesAux_single_line (p : List Char) :
    ∀ cur, '\n' ∉ p → scanLinesAux cur (p ++ ['\n']) = [cur.reverse ++ p] := by
  induction p with
  | nil =>
    intro cur _
    simp [scanLinesAux_cons_eq, scanLinesAux_nil_eq]
  | cons c p ih =>
    intro cur h
    have hc : ¬ c = '\n' := fun he => h (he ▸ List.mem_cons_self c p)
    have hp : '\n' ∉ p := fun hm => h (List.mem_cons_of_mem c hm)
    rw [List.cons_append, scanLinesAux_cons_eq, if_neg hc, ih (c :: cur) hp]
    simp

theorem scanLinesAux_append_line :
    ∀ (c : List Char), c.getLast? = some '\n' →
      ∀ (cur p : List Char), '\n' ∉ p →
        scanLinesAux cur (c ++ (p ++ ['\n'])) = scanLinesAux cur c ++ [p] := by
  intro c
  induction c with
  | nil => intro h; simp at h
  | cons a c2 ih =>
    intro hlast cur p hp
    cases c2 with
    | nil =>
      have ha : a = '\n' := by simpa using hlast
      subst ha
      rw [List.cons_append, List.nil_append, scanLinesAux_cons_eq, if_pos rfl,
        scanLinesAux_single_line p [] hp]
      simp [scanLinesAux_cons_eq, scanLinesAux_nil_eq]
    | cons b c3 =>
      have hlast2 : (b :: c3).getLast? = some '\n' := by
        rw [List.getLast?_cons_cons] at hlast
        exact hlast
      by_cases ha : a = '\n'
      · subst ha
        rw [List.cons_append, scanLinesAux_cons_eq, if_pos rfl, ih hlast2 [] p hp]
        simp [scanLinesAux_cons_eq]
      · rw [List.cons_append, scanLinesAux_cons_eq, if_neg ha, ih hlast2 (a :: cur) p hp]
        simp [scanLinesAux_cons_eq, ha]

theorem mk_toList (s : String) : String.mk s.toList = s := rfl

theorem strToList_append (s t : String) : (s ++ t).toList = s.toList ++ t.toList :=
  String.data_append s t

theorem newlineToList : ("\n" : String).toList = ['\n'] := rfl

/-- C8 counterexample: the dedup check of savePasswordToFile is raw
substring containment of the whole file content, not membership among the
file passwords.  Saving hunter2 into a file whose only password is
hunter2000 changes nothing, so afterwards hunter2 is not contained in the
file at all, contradicting the claim that it would appear exactly once in
addition to the previous contents. -/
theorem savePasswordToFile_substring_counterexample :
    savePasswordToFile "hunter2" "hunter2000\n" = "hunter2000\n" ∧
    "hunter2" ∉ readSmallFile "hunter2000\n" ∧
    "hunter2" ∉ readSmallFile (savePasswordToFile "hunter2" "hunter2000\n") := by
  refine ⟨by decide, by decide, by decide⟩

/-- C8 (amended): savePasswordToFile deduplicates by substring containment
of the raw current file content: if the password occurs anywhere in the
content, in particular whenever it is one of the file passwords, the file
is left unchanged; otherwise the password is appended as a new line (with
a separating newline when needed), and, for newline-terminated or empty
current content and a password free of line breaks, the password then
occurs exactly once among the file lines, while it occurred zero times
before. -/
theorem savePasswordToFile_dedup (password content : String) :
    (password ∈ readSmallFile content → savePasswordToFile password content = content) ∧
    (strContains content password = true → savePasswordToFile password content = content) ∧
    (strContains content password = false → '\n' ∉ password.toList → '\r' ∉ password.toList →
      (content = "" ∨ endsWithNewline content = true) →
      password ∉ linesOfFile content ∧
      List.count password (linesOfFile (savePasswordToFile password content)) = 1) := by
  have hcontains : strContains content password = true →
      savePasswordToFile password content = content := by
    intro h
    simp [savePasswordToFile, h]
  refine ⟨?_, hcontains, ?_⟩
  · intro h
    exact hcontains (strContains_of_sub content password (mem_readSmallFile_sub content password h).1)
  · intro hc hn hr hend
    have notMem : password ∉ linesOfFile content := by
      intro hmem
      rcases List.mem_map.1 hmem with ⟨x, hx, hxe⟩
      have hxl : x = password.toList := by
        have := congrArg String.toList hxe
        simpa [mk_toList] using this
      rw [hxl] at hx
      have hinf := mem_scanLines_sub content.toList password.toList hx
      rw [strContains_of_sub content password hinf] at hc
      exact absurd hc (by simp)
    have hsep : (if content ≠ "" ∧ endsWithNewline content = false then ("\n" : String) else "") = "" := by
      rcases hend with he | he
      · simp [he]
      · simp [he]
    have hL : (savePasswordToFile password content).toList =
        content.toList ++ (password.toList ++ ['\n']) := by
      simp [savePasswordToFile, hc, hsep, strToList_append, newlineToList]
    have haux : scanLinesAux [] ((savePasswordToFile password content).toList) =
        scanLinesAux [] content.toList ++ [password.toList] := by
      rw [hL]
      rcases hend with he | he
      · subst he
        show scanLinesAux [] ([] ++ (password.toList ++ ['\n'])) = _
        rw [List.nil_append, scanLinesAux_single_line password.toList [] hn]
        simp [scanLinesAux_nil_eq]
      · unfold endsWithNewline at he
        obtain ⟨t, ht⟩ := (List.isSuffixOf_iff_suffix).1 he
        have hlast : content.toList.getLast? = some '\n' := by
          rw [← ht]; exact List.getLast?_concat t
        exact scanLinesAux_append_line content.toList hlast [] password.toList hn
    have hlines : linesOfFile (savePasswordToFile password content) =
        linesOfFile content ++ [password] := by
      unfold linesOfFile scanLines
      rw [haux]
      have hd : dropCR password.data = password.data := dropCR_no_cr password.toList hr
      simp [hd]
    refine ⟨notMem, ?_⟩
    rw [hlines, List.count_append, List.count_eq_zero.2 notMem]
    simp [List.count_singleton]

/-- Witness for C8 (amended): saving newpass into a newline-terminated
file that does not contain it yields a file holding newpass exactly once,
and saving a password already present leaves the file unchanged. -/
theorem savePasswordToFile_dedup_witness :
    ("old" ∉ linesOfFile "old123\n" ∨ savePasswordToFile "old" "old123\n" = "old123\n") ∧
    ("newpass" ∉ linesOfFile "old123\n" ∧
      List.count "newpass" (linesOfFile (savePasswordToFile "newpass" "old123\n")) = 1) := by
  constructor
  · right
    exact (savePasswordToFile_dedup "old" "old123\n").2.1 (by decide)
  · exact (savePasswordToFile_dedup "newpass" "old123\n").2.2 (by decide) (by decide) (by decide)
      (Or.inr (by decide))

/-- Models Go path/filepath.Base for slash-separated, volume-free paths:
the empty path gives a dot, trailing separators are dropped, and the last
component is returned (a slash when the path consists of separators). -/
def filepathBase (p : List Char) : List Char :=
  if p = [] then ['.']
  else
    let q := p.reverse.dropWhile (fun c => c == '/')
    if q = [] then ['/']
    else (q.takeWhile (fun c => c != '/')).reverse

/-- Models Go path/filepath.Dir for slash-separated, already-clean paths:
everything before the last separator; a dot when there is no separator and
a slash when the directory part is the root. -/
def filepathDir (p : List Char) : List Char :=
  let drev := p.reverse.dropWhile (fun c => c != '/')
  let drev2 := drev.dropWhile (fun c => c == '/')
  if drev = [] then ['.']
  else if drev2 = [] then ['/']
  else drev2.reverse

/-- Models Go path/filepath.Join of a cleaned directory and a bare file
name, the only shape produced by the embedded functions. -/
def filepathJoin (dir file : List Char) : List Char :=
  if dir = [] then file
  else if dir = ['.'] then file
  else if dir = ['/'] then '/' :: file
  else dir ++ '/' :: file

/-- Models Go path/filepath.Ext: the suffix of the final path component
starting at its last dot, empty when that component has no dot. -/
def filepathExt (p : List Char) : List Char :=
  let r := p.reverse.takeWhile (fun c => c != '/')
  if r.any (fun c => c == '.') then '.' :: (r.takeWhile (fun c => c != '.')).reverse
  else []

/-- Models strings.ToLower on the ASCII names handled here. -/
def lowercaseChars (l : List Char) : List Char :=
  l.map Char.toLower

/-- Models regexp matching of the anchored 7z volume pattern: the name ends
in three digits immediately preceded by the literal .7z. (pattern
backslash-dot 7z backslash-dot d-three dollar). -/
def match7zPart (s : List Char) : Bool :=
  (s.reverse.take 3).all Char.isDigit && ['.', 'z', '7', '.'].isPrefixOf (s.reverse.drop 3)

/-- Models the anchored zip dotted-number volume pattern: three trailing
digits immediately preceded by the literal .zip. -/
def matchZipNNN (s : List Char) : Bool :=
  (s.reverse.take 3).all Char.isDigit && ['.', 'p', 'i', 'z', '.'].isPrefixOf (s.reverse.drop 3)

/-- Models the anchored tar volume pattern: three trailing digits
immediately preceded by the literal .tar. -/
def matchTarNNN (s : List Char) : Bool :=
  (s.reverse.take 3).all Char.isDigit && ['.', 'r', 'a', 't', '.'].isPrefixOf (s.reverse.drop 3)

/-- Models the anchored legacy zip volume pattern: two trailing digits
immediately preceded by the literal .z. -/
def matchZNN (s : List Char) : Bool :=
  (s.reverse.take 2).all Char.isDigit && ['z', '.'].isPrefixOf (s.reverse.drop 2)

/-- Models the anchored legacy rar volume pattern: two trailing digits
immediately preceded by the literal .r. -/
def matchRNN (s : List Char) : Bool :=
  (s.reverse.take 2).all Char.isDigit && ['r', '.'].isPrefixOf (s.reverse.drop 2)

/-- Core of the rar part pattern on the reversed name after the reversed
.rar suffix: at least one digit, then the reversed literal .part. -/
def revDigitsDotPart : List Char → Bool
  | [] => false
  | c :: rest =>
    c.isDigit &&
      (if ['t', 'r', 'a', 'p', '.'].isPrefixOf rest then true else revDigitsDotPart rest)

/-- Models the anchored rar volume pattern: the name ends in .rar preceded
by one or more digits preceded by the literal .part. -/
def matchPartRar (s : List Char) : Bool :=
  ['r', 'a', 'r', '.'].isPrefixOf s.reverse && revDigitsDotPart (s.reverse.drop 4)

/-- Models strings.Split(s, sep) component 0: the text before the first
occurrence of sep, or all of s when sep does not occur. -/
def takeBeforeFirstSub (sep : List Char) : List Char → List Char
  | [] => []
  | c :: rest =>
    if sep.isPrefixOf (c :: rest) then []
    else c :: takeBeforeFirstSub sep rest

/-- Models getFirstVolumePath (src/main.go 474-526) over the stat oracle
fs, which tells whether a path exists.  The source checks each volume rule
in order and falls through on a failed existence probe; its final two
branches (a plain .zip that leads a .z01 set, and the no-volume default)
both return the input unchanged and are merged into the final else.  The
source never returns a non-nil error, so the result is just the path. -/
def getFirstVolumePath (fs : List Char → Bool) (archivePath : List Char) : List Char :=
  let baseName := filepathBase archivePath
  let baseDir := filepathDir archivePath
  if match7zPart baseName then
    filepathJoin baseDir (baseName.take (baseName.length - 7) ++ ".7z.001".toList)
  else if matchZipNNN baseName &&
      fs (filepathJoin baseDir (baseName.take (baseName.length - 8) ++ ".zip.001".toList)) then
    filepathJoin baseDir (baseName.take (baseName.length - 8) ++ ".zip.001".toList)
  else if matchZNN baseName &&
      fs (filepathJoin baseDir (baseName.take (baseName.length - 4) ++ ".zip".toList)) then
    filepathJoin baseDir (baseName.take (baseName.length - 4) ++ ".zip".toList)
  else if matchPartRar baseName then
    filepathJoin baseDir (takeBeforeFirstSub ".part".toList baseName ++ ".part1.rar".toList)
  else if matchRNN baseName then
    filepathJoin baseDir (baseName.take (baseName.length - 4) ++ ".rar".toList)
  else archivePath

/-- The file type constants of src/main.go, in iota order, as the Int
values getFileType returns (minus one is the unknown sentinel). -/
def TYPE_ZIP : Int := 0

def TYPE_RAR : Int := 1

def TYPE_7Z : Int := 2

def TYPE_ZIP_PART : Int := 3

def TYPE_RAR_PART : Int := 4

def TYPE_7Z_PART : Int := 5

def TYPE_GZ : Int := 6

def TYPE_BZ2 : Int := 7

def TYPE_TAR : Int := 8

def TYPE_TAR_PART : Int := 9

def TYPE_XZ : Int := 10

def TYPE_CAB : Int := 11

def TYPE_ISO : Int := 12

def TYPE_ARJ : Int := 13

def TYPE_LZH : Int := 14

def TYPE_WIM : Int := 15

/-- What the content-probing middle of getFileType can observe for a file:
an open error, a read error, or the filetype library result on the first
8 KiB (none models the Unknown kind or a match error, which fall through
to the extension checks; a recognized MIME string is carried). -/
inductive ContentProbe where
  | openError
  | readError
  | sniffed (mime : Option String)
deriving DecidableEq

/-- Models the MIME switch of getFileType (src/main.go 234-253); an
unlisted MIME value falls through to the extension checks. -/
def mimeToType (m : String) : Option Int :=
  if m = "application/zip" then some TYPE_ZIP
  else if m = "application/x-rar-compressed" then some TYPE_RAR
  else if m = "application/x-7z-compressed" then some TYPE_7Z
  else if m = "application/gzip" then some TYPE_GZ
  else if m = "application/x-bzip2" then some TYPE_BZ2
  else if m = "application/x-tar" then some TYPE_TAR
  else if m = "application/x-xz" then some TYPE_XZ
  else if m = "application/vnd.ms-cab-compressed" then some TYPE_CAB
  else if m = "application/x-iso9660-image" then some TYPE_ISO
  else none

/-- Models the extension switch of getFileType (src/main.go 257-283) on
the lower-cased extension of the path. -/
def extToType (ext : List Char) : Option Int :=
  if ext = ".zip".toList then some TYPE_ZIP
  else if ext = ".rar".toList then some TYPE_RAR
  else if ext = ".7z".toList then some TYPE_7Z
  else if ext = ".gz".toList || ext = ".tgz".toList then some TYPE_GZ
  else if ext = ".bz2".toList || ext = ".tbz2".toList then some TYPE_BZ2
  else if ext = ".tar".toList then some TYPE_TAR
  else if ext = ".xz".toList || ext = ".txz".toList then some TYPE_XZ
  else if ext = ".cab".toList then some TYPE_CAB
  else if ext = ".iso".toList then some TYPE_ISO
  else if ext = ".arj".toList then some TYPE_ARJ
  else if ext = ".lzh".toList || ext = ".lha".toList then some TYPE_LZH
  else if ext = ".wim".toList || ext = ".swm".toList then some TYPE_WIM
  else none

/-- Models the compound-suffix fallback of getFileType (src/main.go
286-296) on the lower-cased base name, ending at the unknown sentinel. -/
def specialSuffixType (baseName : List Char) : Int :=
  if ".tar.gz".toList.isSuffixOf baseName then TYPE_GZ
  else if ".tar.bz2".toList.isSuffixOf baseName then TYPE_BZ2
  else if ".tar.xz".toList.isSuffixOf baseName then TYPE_XZ
  else -1

/-- Models getFileType (src/main.go 196-297): the volume-name patterns on
the lower-cased base name are checked first, before any content access;
only when none matches is the content probe consulted, then the extension
switch, then the compound suffixes, then the unknown sentinel. -/
def getFileType (path : List Char) (probe : ContentProbe) : Int :=
  let baseName := lowercaseChars (filepathBase path)
  if match7zPart baseName then TYPE_7Z_PART
  else if containsSub baseName ".zip.".toList || ".z01".toList.isSuffixOf baseName then
    TYPE_ZIP_PART
  else if (containsSub baseName ".part".toList && ".rar".toList.isSuffixOf baseName) ||
      ".r01".toList.isSuffixOf baseName then
    TYPE_RAR_PART
  else if matchTarNNN baseName then TYPE_TAR_PART
  else
    match probe with
    | .openError => -1
    | .readError => -1
    | .sniffed m =>
      match m.bind mimeToType with
      | some t => t
      | none =>
        match extToType (lowercaseChars (filepathExt path)) with
        | some t => t
        | none => specialSuffixType baseName

/-- First occurrence scan for the reversed literal .part: when found,
returns the remainder after it, which reversed is the text before the last
occurrence of .part in the original string. -/
def cutLastPartRev : List Char → Option (List Char)
  | [] => none
  | c :: rest =>
    if ['t', 'r', 'a', 'p', '.'].isPrefixOf (c :: rest) then some ((c :: rest).drop 5)
    else cutLastPartRev rest

/-- Models the strings.LastIndex(nameWithoutExt, dot-part) slicing step of
getDefaultExtractPath: everything from the last .part on is removed. -/
def stripFromLastPart (s : List Char) : List Char :=
  match cutLastPartRev s.reverse with
  | some r => r.reverse
  | none => s

/-- Models strings.TrimSuffix. -/
def trimSuffixL (s suffixPart : List Char) : List Char :=
  if suffixPart.isSuffixOf s then s.take (s.length - suffixPart.length) else s

/-- Models getDefaultExtractPath (src/main.go 930-953): the base name
loses its extension, then one of the container suffixes .7z .zip .rar when
still present, then everything from the last .part on; the result is
joined onto the directory of the archive. -/
def getDefaultExtractPath (archivePath : List Char) : List Char :=
  let baseName := filepathBase archivePath
  let ext := filepathExt baseName
  let n1 := trimSuffixL baseName ext
  let n2 :=
    if ".7z".toList.isSuffixOf n1 then trimSuffixL n1 ".7z".toList
    else if ".zip".toList.isSuffixOf n1 then trimSuffixL n1 ".zip".toList
    else if ".rar".toList.isSuffixOf n1 then trimSuffixL n1 ".rar".toList
    else n1
  let n3 := stripFromLastPart n2
  filepathJoin (filepathDir archivePath) n3

theorem takeWhile_append_all {α : Type} {p : α → Bool} (l₁ l₂ : List α)
    (h : ∀ a ∈ l₁, p a = true) :
    (l₁ ++ l₂).takeWhile p = l₁ ++ l₂.takeWhile p := by
  induction l₁ with
  | nil => simp
  | cons a l ih =>
    have ha : p a = true := h a (by simp)
    have hl : ∀ b ∈ l, p b = true := fun b hb => h b (by simp [hb])
    simp [List.takeWhile_cons, ha, ih hl]

theorem dropWhile_append_all {α : Type} {p : α → Bool} (l₁ l₂ : List α)
    (h : ∀ a ∈ l₁, p a = true) :
    (l₁ ++ l₂).dropWhile p = l₂.dropWhile p := by
  induction l₁ with
  | nil => simp
  | cons a l ih =>
    have ha : p a = true := h a (by simp)
    have hl : ∀ b ∈ l, p b = true := fun b hb => h b (by simp [hb])
    simp [List.dropWhile_cons, ha, ih hl]

theorem dropWhile_all_false {α : Type} {p : α → Bool} (l : List α)
    (h : ∀ a ∈ l, p a = false) : l.dropWhile p = l := by
  cases l with
  | nil => simp
  | cons a t => simp [List.dropWhile_cons, h a (by simp)]

theorem digit_beq_false (d c : Char) (hd : d.isDigit = true) (hc : c.isDigit = false) :
    (d == c) = false := by
  refine beq_eq_false_iff_ne.2 ?_
  intro he
  rw [he, hc] at hd
  cases hd

theorem beq_digit_false (c d : Char) (hd : d.isDigit = true) (hc : c.isDigit = false) :
    (c == d) = false := by
  rw [Bool.beq_comm]
  exact digit_beq_false d c hd hc

theorem nondigit_notin_digits (c : Char) (hc : c.isDigit = false) (l : List Char)
    (h : ∀ x ∈ l, x.isDigit = true) : c ∉ l := by
  intro hm
  rw [h c hm] at hc
  cases hc

theorem bne_slash_of_ne (c : Char) (h : c ≠ '/') : (c != '/') = true := by
  simp [h]

/-- The last slash-free component of a path, the common value the base of
all volumes of one archive reduces to; proof abbreviation. -/
def lastComponent (p : List Char) : List Char :=
  (p.reverse.takeWhile (fun c => c != '/')).reverse

theorem slash_notin_lastComponent (p : List Char) : '/' ∉ lastComponent p := by
  intro hm
  unfold lastComponent at hm
  rw [List.mem_reverse] at hm
  have := List.mem_takeWhile_imp hm
  simp at this

theorem filepathBase_noslash (p : List Char) (hne : p ≠ []) (h : '/' ∉ p) :
    filepathBase p = p := by
  have hall : ∀ a ∈ p.reverse, (a == '/') = false := by
    intro a ha
    refine beq_eq_false_iff_ne.2 ?_
    intro he
    exact h (he ▸ List.mem_reverse.1 ha)
  have h1 : p.reverse.dropWhile (fun c => c == '/') = p.reverse :=
    dropWhile_all_false p.reverse hall
  have h2 : p.reverse.takeWhile (fun c => c != '/') = p.reverse := by
    refine List.takeWhile_eq_self_iff.2 ?_
    intro a ha
    exact bne_slash_of_ne a (fun he => h (he ▸ List.mem_reverse.1 ha))
  simp [filepathBase, hne, h1, h2, List.reverse_eq_nil_iff]

theorem filepathDir_noslash (p : List Char) (h : '/' ∉ p) : filepathDir p = ['.'] := by
  have h1 : p.reverse.dropWhile (fun c => c != '/') = [] := by
    refine List.dropWhile_eq_nil_iff.2 ?_
    intro a ha
    exact bne_slash_of_ne a (fun he => h (he ▸ List.mem_reverse.1 ha))
  simp [filepathDir, h1]

theorem filepathJoin_dot (f : List Char) : filepathJoin ['.'] f = f := by
  simp [filepathJoin]

theorem filepathBase_append_noslash (name s : List Char) (hs : s ≠ []) (h : '/' ∉ s) :
    filepathBase (name ++ s) = lastComponent name ++ s := by
  have hne : name ++ s ≠ [] := by simp [hs]
  obtain ⟨c, t, hct⟩ : ∃ c t, s.reverse = c :: t := by
    cases hsr : s.reverse with
    | nil => exact absurd (by simpa using congrArg List.reverse hsr) hs
    | cons c t => exact ⟨c, t, rfl⟩
  have hmem : ∀ a ∈ s.reverse, a ≠ '/' := by
    intro a ha he
    exact h (he ▸ List.mem_reverse.1 ha)
  have hcq : (c == '/') = false :=
    beq_eq_false_iff_ne.2 (hmem c (by rw [hct]; simp))
  have hq : (name ++ s).reverse.dropWhile (fun c => c == '/') = s.reverse ++ name.reverse := by
    rw [List.reverse_append, hct, List.cons_append, List.dropWhile_cons, hcq]
    simp
  have hqne : s.reverse ++ name.reverse ≠ [] := by
    rw [hct]; simp
  have htw : (s.reverse ++ name.reverse).takeWhile (fun c => c != '/') =
      s.reverse ++ name.reverse.takeWhile (fun c => c != '/') := by
    refine takeWhile_append_all s.reverse name.reverse ?_
    intro a ha
    exact bne_slash_of_ne a (hmem a ha)
  simp only [filepathBase, if_neg hne, hq, if_neg hqne, htw]
  rw [List.reverse_append]
  unfold lastComponent
  simp

theorem filepathDir_append_noslash (name s : List Char) (h : '/' ∉ s) :
    filepathDir (name ++ s) = filepathDir name := by
  have hd : (name ++ s).reverse.dropWhile (fun c => c != '/') =
      name.reverse.dropWhile (fun c => c != '/') := by
    rw [List.reverse_append]
    refine dropWhile_append_all s.reverse name.reverse ?_
    intro a ha
    exact bne_slash_of_ne a (fun he => h (he ▸ List.mem_reverse.1 ha))
  simp only [filepathDir, hd]

theorem cutLastPartRev_cons (c : Char) (rest : List Char) :
    cutLastPartRev (c :: rest) =
      if (['t', 'r', 'a', 'p', '.'] : List Char).isPrefixOf (c :: rest) then
        some ((c :: rest).drop 5)
      else cutLastPartRev rest := rfl

theorem cutLastPartRev_digits (l : List Char) (hl : ∀ c ∈ l, c.isDigit = true) :
    ∀ rest, cutLastPartRev (l ++ ('t' :: 'r' :: 'a' :: 'p' :: '.' :: rest)) = some rest := by
  induction l with
  | nil =>
    intro rest
    rw [List.nil_append, cutLastPartRev_cons]
    simp [List.isPrefixOf]
  | cons c l2 ih =>
    intro rest
    have hc : c.isDigit = true := hl c (by simp)
    have hl2 : ∀ x ∈ l2, x.isDigit = true := fun x hx => hl x (by simp [hx])
    have hpf : (['t', 'r', 'a', 'p', '.'] : List Char).isPrefixOf
        (c :: (l2 ++ ('t' :: 'r' :: 'a' :: 'p' :: '.' :: rest))) = false := by
      simp [List.isPrefixOf, beq_digit_false 't' c hc (by decide)]
    rw [List.cons_append, cutLastPartRev_cons]
    simp only [hpf, Bool.false_eq_true, if_false]
    exact ih hl2 rest

theorem getDefaultExtractPath_partN (name m : List Char) (hm : ∀ c ∈ m, c.isDigit = true) :
    getDefaultExtractPath (name ++ ('.' :: 'p' :: 'a' :: 'r' :: 't' :: (m ++ ['.', 'r', 'a', 'r']))) =
      filepathJoin (filepathDir name) (lastComponent name) := by
  have hnm : ('/' : Char) ∉ m := nondigit_notin_digits '/' (by decide) m hm
  have hsne : ('.' :: 'p' :: 'a' :: 'r' :: 't' :: (m ++ ['.', 'r', 'a', 'r'])) ≠ ([] : List Char) := by
    simp
  have hslash : ('/' : Char) ∉ ('.' :: 'p' :: 'a' :: 'r' :: 't' :: (m ++ ['.', 'r', 'a', 'r'])) := by
    intro hmem
    rcases List.mem_cons.1 hmem with h | hmem
    · exact absurd h (by decide)
    rcases List.mem_cons.1 hmem with h | hmem
    · exact absurd h (by decide)
    rcases List.mem_cons.1 hmem with h | hmem
    · exact absurd h (by decide)
    rcases List.mem_cons.1 hmem with h | hmem
    · exact absurd h (by decide)
    rcases List.mem_cons.1 hmem with h | hmem
    · exact absurd h (by decide)
    rcases List.mem_append.1 hmem with h | h
    · exact hnm h
    · exact absurd h (by decide)
  have hbase := filepathBase_append_noslash name _ hsne hslash
  have hdir := filepathDir_append_noslash name _ hslash
  have hnoslashbase : ('/' : Char) ∉ lastComponent name ++
      ('.' :: 'p' :: 'a' :: 'r' :: 't' :: (m ++ ['.', 'r', 'a', 'r'])) := by
    intro hmem
    rcases List.mem_append.1 hmem with h | h
    · exact slash_notin_lastComponent name h
    · exact hslash h
  have hXrar : lastComponent name ++ ('.' :: 'p' :: 'a' :: 'r' :: 't' :: (m ++ ['.', 'r', 'a', 'r'])) =
      (lastComponent name ++ ('.' :: 'p' :: 'a' :: 'r' :: 't' :: m)) ++ ['.', 'r', 'a', 'r'] := by
    simp
  have hXrev : (lastComponent name ++ ('.' :: 'p' :: 'a' :: 'r' :: 't' :: m)).reverse =
      m.reverse ++ ('t' :: 'r' :: 'a' :: 'p' :: '.' :: (lastComponent name).reverse) := by
    simp
  have hsrev : (lastComponent name ++
      ('.' :: 'p' :: 'a' :: 'r' :: 't' :: (m ++ ['.', 'r', 'a', 'r']))).reverse =
      'r' :: 'a' :: 'r' :: '.' ::
        (m.reverse ++ ('t' :: 'r' :: 'a' :: 'p' :: '.' :: (lastComponent name).reverse)) := by
    simp
  have hr : (lastComponent name ++
      ('.' :: 'p' :: 'a' :: 'r' :: 't' :: (m ++ ['.', 'r', 'a', 'r']))).reverse.takeWhile
        (fun c => c != '/') =
      (lastComponent name ++
        ('.' :: 'p' :: 'a' :: 'r' :: 't' :: (m ++ ['.', 'r', 'a', 'r']))).reverse := by
    refine List.takeWhile_eq_self_iff.2 ?_
    intro a ha
    exact bne_slash_of_ne a (fun he => hnoslashbase (he ▸ List.mem_reverse.1 ha))
  have hext : filepathExt (lastComponent name ++
      ('.' :: 'p' :: 'a' :: 'r' :: 't' :: (m ++ ['.', 'r', 'a', 'r']))) = ['.', 'r', 'a', 'r'] := by
    simp only [filepathExt, hr, hsrev]
    simp [List.takeWhile_cons]
  have hn1 : trimSuffixL (lastComponent name ++
      ('.' :: 'p' :: 'a' :: 'r' :: 't' :: (m ++ ['.', 'r', 'a', 'r']))) ['.', 'r', 'a', 'r'] =
      lastComponent name ++ ('.' :: 'p' :: 'a' :: 'r' :: 't' :: m) := by
    rw [hXrar]
    have hsuf : (['.', 'r', 'a', 'r'] : List Char).isSuffixOf
        ((lastComponent name ++ ('.' :: 'p' :: 'a' :: 'r' :: 't' :: m)) ++ ['.', 'r', 'a', 'r']) =
        true :=
      List.isSuffixOf_iff_suffix.2 ⟨_, rfl⟩
    have hlen : ((lastComponent name ++ ('.' :: 'p' :: 'a' :: 'r' :: 't' :: m)) ++
        ['.', 'r', 'a', 'r']).length - 4 =
        (lastComponent name ++ ('.' :: 'p' :: 'a' :: 'r' :: 't' :: m)).length := by
      simp only [List.length_append, List.length_cons, List.length_nil]
      omega
    simp only [trimSuffixL, hsuf, if_true, List.length_cons, List.length_nil, hlen]
    exact List.take_left _ _
  obtain ⟨a, rest2, hXr, hz, hp2, hr2⟩ :
      ∃ a rest2,
        (lastComponent name ++ ('.' :: 'p' :: 'a' :: 'r' :: 't' :: m)).reverse = a :: rest2 ∧
        ('z' == a) = false ∧ ('p' == a) = false ∧ ('r' == a) = false := by
    rcases hmr : m.reverse with _ | ⟨c, t⟩
    · refine ⟨'t', 'r' :: 'a' :: 'p' :: '.' :: (lastComponent name).reverse, ?_, by decide,
        by decide, by decide⟩
      rw [hXrev, hmr]
      simp
    · have hc : c.isDigit = true := hm c (List.mem_reverse.1 (by rw [hmr]; simp))
      refine ⟨c, t ++ ('t' :: 'r' :: 'a' :: 'p' :: '.' :: (lastComponent name).reverse), ?_,
        beq_digit_false 'z' c hc (by decide), beq_digit_false 'p' c hc (by decide),
        beq_digit_false 'r' c hc (by decide)⟩
      rw [hXrev, hmr]
      simp
  have h7z : (".7z".toList.isSuffixOf
      (lastComponent name ++ ('.' :: 'p' :: 'a' :: 'r' :: 't' :: m))) = false := by
    show ((['.', '7', 'z'] : List Char).reverse.isPrefixOf
      (lastComponent name ++ ('.' :: 'p' :: 'a' :: 'r' :: 't' :: m)).reverse) = false
    rw [hXr]
    simp [List.isPrefixOf, hz]
  have hzip : (".zip".toList.isSuffixOf
      (lastComponent name ++ ('.' :: 'p' :: 'a' :: 'r' :: 't' :: m))) = false := by
    show ((['.', 'z', 'i', 'p'] : List Char).reverse.isPrefixOf
      (lastComponent name ++ ('.' :: 'p' :: 'a' :: 'r' :: 't' :: m)).reverse) = false
    rw [hXr]
    simp [List.isPrefixOf, hp2]
  have hrar : (".rar".toList.isSuffixOf
      (lastComponent name ++ ('.' :: 'p' :: 'a' :: 'r' :: 't' :: m))) = false := by
    show ((['.', 'r', 'a', 'r'] : List Char).reverse.isPrefixOf
      (lastComponent name ++ ('.' :: 'p' :: 'a' :: 'r' :: 't' :: m)).reverse) = false
    rw [hXr]
    simp [List.isPrefixOf, hr2]
  have hstrip : stripFromLastPart (lastComponent name ++ ('.' :: 'p' :: 'a' :: 'r' :: 't' :: m)) =
      lastComponent name := by
    unfold stripFromLastPart
    rw [hXrev, cutLastPartRev_digits m.reverse
      (fun c hc => hm c (List.mem_reverse.1 hc)) (lastComponent name).reverse]
    simp
  simp only [getDefaultExtractPath, hbase, hdir, hext, hn1, h7z, hzip, hrar,
    Bool.false_eq_true, if_false, hstrip]

/-- C9: the output-directory derivation is a pure function of the archive
path that strips the container and volume suffixes, so for any name and
any two volume indices the derived directory of name.partM.rar equals that
of name.partN.rar: both reduce to the directory joined with the bare last
component of the name, independent of the selected volume, and, being a
pure function, identical across repeated runs. -/
theorem getDefaultExtractPath_volume_independent (name m n : List Char)
    (hm : ∀ c ∈ m, c.isDigit = true) (hn : ∀ c ∈ n, c.isDigit = true) :
    getDefaultExtractPath (name ++ ('.' :: 'p' :: 'a' :: 'r' :: 't' :: (m ++ ['.', 'r', 'a', 'r']))) =
      getDefaultExtractPath (name ++ ('.' :: 'p' :: 'a' :: 'r' :: 't' :: (n ++ ['.', 'r', 'a', 'r']))) := by
  rw [getDefaultExtractPath_partN name m hm, getDefaultExtractPath_partN name n hn]

/-- Witness for C9: the derivations for backup.part1.rar and
backup.part2.rar coincide (and the quantified path shape instantiates to
exactly those two strings). -/
theorem getDefaultExtractPath_volume_independent_witness :
    "backup".toList ++ ('.' :: 'p' :: 'a' :: 'r' :: 't' :: ((['1'] : List Char) ++ ['.', 'r', 'a', 'r'])) =
      "backup.part1.rar".toList ∧
    getDefaultExtractPath
        ("backup".toList ++ ('.' :: 'p' :: 'a' :: 'r' :: 't' :: ((['1'] : List Char) ++ ['.', 'r', 'a', 'r']))) =
      getDefaultExtractPath
        ("backup".toList ++ ('.' :: 'p' :: 'a' :: 'r' :: 't' :: ((['2'] : List Char) ++ ['.', 'r', 'a', 'r']))) := by
  refine ⟨by decide, ?_⟩
  exact getDefaultExtractPath_volume_independent "backup".toList ['1'] ['2'] (by decide) (by decide)

/-- C6: for a path whose lower-cased base name matches a volume-name
pattern, getFileType returns the corresponding part kind from the
name-only checks at its top, before the content probe is ever consulted:
the result is the same for every probe value, including open and read
errors on an unreadable or corrupt file.  The patterns are tried in source
order, so each later rule carries the negations of the earlier ones. -/
theorem getFileType_volume_patterns (path : List Char) :
    (match7zPart (lowercaseChars (filepathBase path)) = true →
      ∀ probe, getFileType path probe = TYPE_7Z_PART) ∧
    (match7zPart (lowercaseChars (filepathBase path)) = false →
      (containsSub (lowercaseChars (filepathBase path)) ".zip.".toList ||
        ".z01".toList.isSuffixOf (lowercaseChars (filepathBase path))) = true →
      ∀ probe, getFileType path probe = TYPE_ZIP_PART) ∧
    (match7zPart (lowercaseChars (filepathBase path)) = false →
      (containsSub (lowercaseChars (filepathBase path)) ".zip.".toList ||
        ".z01".toList.isSuffixOf (lowercaseChars (filepathBase path))) = false →
      ((containsSub (lowercaseChars (filepathBase path)) ".part".toList &&
          ".rar".toList.isSuffixOf (lowercaseChars (filepathBase path))) ||
        ".r01".toList.isSuffixOf (lowercaseChars (filepathBase path))) = true →
      ∀ probe, getFileType path probe = TYPE_RAR_PART) ∧
    (match7zPart (lowercaseChars (filepathBase path)) = false →
      (containsSub (lowercaseChars (filepathBase path)) ".zip.".toList ||
        ".z01".toList.isSuffixOf (lowercaseChars (filepathBase path))) = false →
      ((containsSub (lowercaseChars (filepathBase path)) ".part".toList &&
          ".rar".toList.isSuffixOf (lowercaseChars (filepathBase path))) ||
        ".r01".toList.isSuffixOf (lowercaseChars (filepathBase path))) = false →
      matchTarNNN (lowercaseChars (filepathBase path)) = true →
      ∀ probe, getFileType path probe = TYPE_TAR_PART) := by
  refine ⟨?_, ?_, ?_, ?_⟩
  · intro h1 probe
    simp only [getFileType]
    rw [h1]
    simp
  · intro h1 h2 probe
    simp only [getFileType]
    rw [h1, h2]
    simp
  · intro h1 h2 h3 probe
    simp only [getFileType]
    rw [h1, h2, h3]
    simp
  · intro h1 h2 h3 h4 probe
    simp only [getFileType]
    rw [h1, h2, h3, h4]
    simp

/-- Witness for C6: a deliberately unreadable or arbitrary-content file
named as a 7z volume classifies as the 7z part kind under every probe
outcome, and likewise for the other part kinds. -/
theorem getFileType_volume_patterns_witness :
    getFileType "broken.7z.001".toList .openError = TYPE_7Z_PART ∧
    getFileType "broken.7z.001".toList .readError = TYPE_7Z_PART ∧
    getFileType "broken.7z.001".toList (.sniffed (some "application/zip")) = TYPE_7Z_PART ∧
    getFileType "x.zip.001".toList .openError = TYPE_ZIP_PART ∧
    getFileType "x.part2.rar".toList .openError = TYPE_RAR_PART ∧
    getFileType "x.tar.003".toList .openError = TYPE_TAR_PART := by
  refine ⟨?_, ?_, ?_, ?_, ?_, ?_⟩
  · exact (getFileType_volume_patterns "broken.7z.001".toList).1 (by decide) .openError
  · exact (getFileType_volume_patterns "broken.7z.001".toList).1 (by decide) .readError
  · exact (getFileType_volume_patterns "broken.7z.001".toList).1 (by decide)
      (.sniffed (some "application/zip"))
  · exact (getFileType_volume_patterns "x.zip.001".toList).2.1 (by decide) (by decide) .openError
  · exact (getFileType_volume_patterns "x.part2.rar".toList).2.2.1 (by decide) (by decide)
      (by decide) .openError
  · exact (getFileType_volume_patterns "x.tar.003".toList).2.2.2 (by decide) (by decide)
      (by decide) (by decide) .openError

theorem slash_notin_nil : ('/' : Char) ∉ ([] : List Char) := by simp

theorem slash_notin_cons_ne (c : Char) (hc : ('/' : Char) ≠ c) (l : List Char)
    (h : ('/' : Char) ∉ l) : ('/' : Char) ∉ c :: l := by
  intro hm
  rcases List.mem_cons.1 hm with he | hm2
  · exact hc he
  · exact h hm2

theorem slash_notin_cons_digit (d : Char) (hd : d.isDigit = true) (l : List Char)
    (h : ('/' : Char) ∉ l) : ('/' : Char) ∉ d :: l :=
  slash_notin_cons_ne d (fun he => by rw [← he] at hd; exact absurd hd (by decide)) l h

theorem gFVP_rule_7z (fs : List Char → Bool) (name : List Char) (d1 d2 d3 : Char)
    (hs : '/' ∉ name) (hd1 : d1.isDigit = true) (hd2 : d2.isDigit = true)
    (hd3 : d3.isDigit = true) :
    getFirstVolumePath fs (name ++ ['.', '7', 'z', '.', d1, d2, d3]) =
      name ++ ".7z.001".toList := by
  have hss : ('/' : Char) ∉ (['.', '7', 'z', '.', d1, d2, d3] : List Char) :=
    slash_notin_cons_ne '.' (by decide) _ (slash_notin_cons_ne '7' (by decide) _
      (slash_notin_cons_ne 'z' (by decide) _ (slash_notin_cons_ne '.' (by decide) _
        (slash_notin_cons_digit d1 hd1 _ (slash_notin_cons_digit d2 hd2 _
          (slash_notin_cons_digit d3 hd3 _ slash_notin_nil))))))
  have hp : ('/' : Char) ∉ name ++ ['.', '7', 'z', '.', d1, d2, d3] := by
    intro hm
    rcases List.mem_append.1 hm with h | h
    · exact hs h
    · exact hss h
  have hbase : filepathBase (name ++ ['.', '7', 'z', '.', d1, d2, d3]) =
      name ++ ['.', '7', 'z', '.', d1, d2, d3] :=
    filepathBase_noslash _ (by simp) hp
  have hdir : filepathDir (name ++ ['.', '7', 'z', '.', d1, d2, d3]) = ['.'] :=
    filepathDir_noslash _ hp
  have hrev : (name ++ ['.', '7', 'z', '.', d1, d2, d3]).reverse =
      d3 :: d2 :: d1 :: '.' :: 'z' :: '7' :: '.' :: name.reverse := by
    simp
  have h7z : match7zPart (name ++ ['.', '7', 'z', '.', d1, d2, d3]) = true := by
    unfold match7zPart
    rw [hrev]
    simp [List.isPrefixOf, hd1, hd2, hd3]
  have hlen : (name ++ ['.', '7', 'z', '.', d1, d2, d3]).length - 7 = name.length := by
    simp [List.length_append]
  have htake : (name ++ ['.', '7', 'z', '.', d1, d2, d3]).take
      ((name ++ ['.', '7', 'z', '.', d1, d2, d3]).length - 7) = name := by
    rw [hlen]
    exact List.take_left name _
  simp only [getFirstVolumePath, hbase, hdir, h7z, if_true, htake, filepathJoin_dot]

theorem revDigitsDotPart_cons (c : Char) (rest : List Char) :
    revDigitsDotPart (c :: rest) =
      (c.isDigit &&
        (if (['t', 'r', 'a', 'p', '.'] : List Char).isPrefixOf rest then true
         else revDigitsDotPart rest)) := rfl

theorem revDigitsDotPart_true (l : List Char) (hne : l ≠ []) (h : ∀ c ∈ l, c.isDigit = true) :
    ∀ rest, revDigitsDotPart (l ++ ('t' :: 'r' :: 'a' :: 'p' :: '.' :: rest)) = true := by
  induction l with
  | nil => exact absurd rfl hne
  | cons c l2 ih =>
    intro rest
    have hc : c.isDigit = true := h c (by simp)
    have hl2 : ∀ x ∈ l2, x.isDigit = true := fun x hx => h x (by simp [hx])
    rw [List.cons_append, revDigitsDotPart_cons]
    cases l2 with
    | nil =>
      have hpf : (['t', 'r', 'a', 'p', '.'] : List Char).isPrefixOf
          ([] ++ ('t' :: 'r' :: 'a' :: 'p' :: '.' :: rest)) = true := by
        simp [List.isPrefixOf]
      rw [hpf]
      simp [hc]
    | cons c2 l3 =>
      have hc2 : c2.isDigit = true := hl2 c2 (by simp)
      have hpf : (['t', 'r', 'a', 'p', '.'] : List Char).isPrefixOf
          ((c2 :: l3) ++ ('t' :: 'r' :: 'a' :: 'p' :: '.' :: rest)) = false := by
        simp [List.isPrefixOf, beq_digit_false 't' c2 hc2 (by decide)]
      rw [hpf]
      simp only [Bool.false_eq_true, if_false]
      rw [ih (by simp) hl2 rest]
      simp [hc]

theorem takeBeforeFirstSub_cons (sep : List Char) (c : Char) (rest : List Char) :
    takeBeforeFirstSub sep (c :: rest) =
      if sep.isPrefixOf (c :: rest) then [] else c :: takeBeforeFirstSub sep rest := rfl

theorem takeBeforeFirstSub_boundary (name : List Char)
    (hnp : containsSub name ['.', 'p', 'a', 'r', 't'] = false) (tail : List Char) :
    takeBeforeFirstSub ['.', 'p', 'a', 'r', 't']
      (name ++ ('.' :: 'p' :: 'a' :: 'r' :: 't' :: tail)) = name := by
  induction name with
  | nil =>
    rw [List.nil_append, takeBeforeFirstSub_cons]
    have hpf : (['.', 'p', 'a', 'r', 't'] : List Char).isPrefixOf
        ('.' :: 'p' :: 'a' :: 'r' :: 't' :: tail) = true := by
      simp [List.isPrefixOf]
    rw [hpf]
    simp
  | cons c name2 ih =>
    have h2 : containsSub name2 ['.', 'p', 'a', 'r', 't'] = false := by
      cases hx : containsSub name2 ['.', 'p', 'a', 'r', 't'] with
      | false => rfl
      | true =>
        exfalso
        have hinf : (['.', 'p', 'a', 'r', 't'] : List Char) <:+: name2 :=
          of_decide_eq_true hx
        have hinf2 : (['.', 'p', 'a', 'r', 't'] : List Char) <:+: c :: name2 :=
          hinf.trans (List.suffix_cons c name2).isInfix
        rw [containsSub, decide_eq_true hinf2] at hnp
        cases hnp
    have hpf : (['.', 'p', 'a', 'r', 't'] : List Char).isPrefixOf
        (c :: (name2 ++ ('.' :: 'p' :: 'a' :: 'r' :: 't' :: tail))) = false := by
      rcases name2 with _ | ⟨a1, name3⟩
      · simp [List.isPrefixOf, (by decide : (('p' : Char) == '.') = false)]
      · rcases name3 with _ | ⟨a2, name4⟩
        · simp [List.isPrefixOf, (by decide : (('a' : Char) == '.') = false)]
        · rcases name4 with _ | ⟨a3, name5⟩
          · simp [List.isPrefixOf, (by decide : (('r' : Char) == '.') = false)]
          · rcases name5 with _ | ⟨a4, name6⟩
            · simp [List.isPrefixOf, (by decide : (('t' : Char) == '.') = false)]
            · cases hx : (['.', 'p', 'a', 'r', 't'] : List Char).isPrefixOf
                  (c :: (a1 :: a2 :: a3 :: a4 :: name6 ++
                    ('.' :: 'p' :: 'a' :: 'r' :: 't' :: tail))) with
              | false => rfl
              | true =>
                exfalso
                have heq : (['.', 'p', 'a', 'r', 't'] : List Char).isPrefixOf
                    (c :: a1 :: a2 :: a3 :: a4 :: name6) = true := by
                  simp only [List.cons_append, List.isPrefixOf, Bool.and_eq_true] at hx ⊢
                  exact hx
                have hpre := List.isPrefixOf_iff_prefix.1 heq
                rw [containsSub, decide_eq_true hpre.isInfix] at hnp
                cases hnp
    rw [List.cons_append, takeBeforeFirstSub_cons, hpf]
    simp only [Bool.false_eq_true, if_false]
    rw [ih h2]

theorem gFVP_rule_zipNNN (fs : List Char → Bool) (name : List Char) (d1 d2 d3 : Char)
    (hs : '/' ∉ name) (hd1 : d1.isDigit = true) (hd2 : d2.isDigit = true)
    (hd3 : d3.isDigit = true) :
    (fs (name ++ ".zip.001".toList) = true →
      getFirstVolumePath fs (name ++ ['.', 'z', 'i', 'p', '.', d1, d2, d3]) =
        name ++ ".zip.001".toList) ∧
    (fs (name ++ ".zip.001".toList) = false →
      getFirstVolumePath fs (name ++ ['.', 'z', 'i', 'p', '.', d1, d2, d3]) =
        name ++ ['.', 'z', 'i', 'p', '.', d1, d2, d3]) := by
  have hss : ('/' : Char) ∉ (['.', 'z', 'i', 'p', '.', d1, d2, d3] : List Char) :=
    slash_notin_cons_ne '.' (by decide) _ (slash_notin_cons_ne 'z' (by decide) _
      (slash_notin_cons_ne 'i' (by decide) _ (slash_notin_cons_ne 'p' (by decide) _
        (slash_notin_cons_ne '.' (by decide) _ (slash_notin_cons_digit d1 hd1 _
          (slash_notin_cons_digit d2 hd2 _
            (slash_notin_cons_digit d3 hd3 _ slash_notin_nil)))))))
  have hp : ('/' : Char) ∉ name ++ ['.', 'z', 'i', 'p', '.', d1, d2, d3] := by
    intro hm
    rcases List.mem_append.1 hm with h | h
    · exact hs h
    · exact hss h
  have hbase : filepathBase (name ++ ['.', 'z', 'i', 'p', '.', d1, d2, d3]) =
      name ++ ['.', 'z', 'i', 'p', '.', d1, d2, d3] :=
    filepathBase_noslash _ (by simp) hp
  have hdir : filepathDir (name ++ ['.', 'z', 'i', 'p', '.', d1, d2, d3]) = ['.'] :=
    filepathDir_noslash _ hp
  have hrev : (name ++ ['.', 'z', 'i', 'p', '.', d1, d2, d3]).reverse =
      d3 :: d2 :: d1 :: '.' :: 'p' :: 'i' :: 'z' :: '.' :: name.reverse := by
    simp
  have h7zF : match7zPart (name ++ ['.', 'z', 'i', 'p', '.', d1, d2, d3]) = false := by
    unfold match7zPart
    rw [hrev]
    simp [List.isPrefixOf, (by decide : (('z' : Char) == 'p') = false)]
  have hzipT : matchZipNNN (name ++ ['.', 'z', 'i', 'p', '.', d1, d2, d3]) = true := by
    unfold matchZipNNN
    rw [hrev]
    simp [List.isPrefixOf, hd1, hd2, hd3]
  have hlen8 : (name ++ ['.', 'z', 'i', 'p', '.', d1, d2, d3]).length - 8 = name.length := by
    simp [List.length_append]
  have htake : (name ++ ['.', 'z', 'i', 'p', '.', d1, d2, d3]).take
      ((name ++ ['.', 'z', 'i', 'p', '.', d1, d2, d3]).length - 8) = name := by
    rw [hlen8]
    exact List.take_left name _
  constructor
  · intro hfs
    simp only [getFirstVolumePath, hbase, hdir, h7zF, htake, filepathJoin_dot, hzipT, hfs]
    simp
  · intro hfs
    have hzNNF : matchZNN (name ++ ['.', 'z', 'i', 'p', '.', d1, d2, d3]) = false := by
      unfold matchZNN
      rw [hrev]
      simp [List.isPrefixOf, beq_digit_false 'z' d1 hd1 (by decide)]
    have hprF : matchPartRar (name ++ ['.', 'z', 'i', 'p', '.', d1, d2, d3]) = false := by
      unfold matchPartRar
      rw [hrev]
      simp [List.isPrefixOf, beq_digit_false 'r' d3 hd3 (by decide)]
    have hrNNF : matchRNN (name ++ ['.', 'z', 'i', 'p', '.', d1, d2, d3]) = false := by
      unfold matchRNN
      rw [hrev]
      simp [List.isPrefixOf, beq_digit_false 'r' d1 hd1 (by decide)]
    simp only [getFirstVolumePath, hbase, hdir, h7zF, htake, filepathJoin_dot, hzipT, hfs,
      hzNNF, hprF, hrNNF]
    simp

theorem gFVP_rule_zNN (fs : List Char → Bool) (name : List Char) (d1 d2 : Char)
    (hs : '/' ∉ name) (hd1 : d1.isDigit = true) (hd2 : d2.isDigit = true) :
    (fs (name ++ ".zip".toList) = true →
      getFirstVolumePath fs (name ++ ['.', 'z', d1, d2]) = name ++ ".zip".toList) ∧
    (fs (name ++ ".zip".toList) = false →
      getFirstVolumePath fs (name ++ ['.', 'z', d1, d2]) = name ++ ['.', 'z', d1, d2]) := by
  have hss : ('/' : Char) ∉ (['.', 'z', d1, d2] : List Char) :=
    slash_notin_cons_ne '.' (by decide) _ (slash_notin_cons_ne 'z' (by decide) _
      (slash_notin_cons_digit d1 hd1 _ (slash_notin_cons_digit d2 hd2 _ slash_notin_nil)))
  have hp : ('/' : Char) ∉ name ++ ['.', 'z', d1, d2] := by
    intro hm
    rcases List.mem_append.1 hm with h | h
    · exact hs h
    · exact hss h
  have hbase : filepathBase (name ++ ['.', 'z', d1, d2]) = name ++ ['.', 'z', d1, d2] :=
    filepathBase_noslash _ (by simp) hp
  have hdir : filepathDir (name ++ ['.', 'z', d1, d2]) = ['.'] :=
    filepathDir_noslash _ hp
  have hrev : (name ++ ['.', 'z', d1, d2]).reverse =
      d2 :: d1 :: 'z' :: '.' :: name.reverse := by
    simp
  have h7zF : match7zPart (name ++ ['.', 'z', d1, d2]) = false := by
    unfold match7zPart
    rw [hrev]
    simp [(by decide : ('z' : Char).isDigit = false)]
  have hzipF : matchZipNNN (name ++ ['.', 'z', d1, d2]) = false := by
    unfold matchZipNNN
    rw [hrev]
    simp [(by decide : ('z' : Char).isDigit = false)]
  have hzNNT : matchZNN (name ++ ['.', 'z', d1, d2]) = true := by
    unfold matchZNN
    rw [hrev]
    simp [List.isPrefixOf, hd1, hd2]
  have hlen4 : (name ++ ['.', 'z', d1, d2]).length - 4 = name.length := by
    simp [List.length_append]
  have htake : (name ++ ['.', 'z', d1, d2]).take
      ((name ++ ['.', 'z', d1, d2]).length - 4) = name := by
    rw [hlen4]
    exact List.take_left name _
  constructor
  · intro hfs
    simp only [getFirstVolumePath, hbase, hdir, h7zF, hzipF, htake, filepathJoin_dot,
      hzNNT, hfs]
    simp
  · intro hfs
    have hprF : matchPartRar (name ++ ['.', 'z', d1, d2]) = false := by
      unfold matchPartRar
      rw [hrev]
      simp [List.isPrefixOf, beq_digit_false 'r' d2 hd2 (by decide)]
    have hrNNF : matchRNN (name ++ ['.', 'z', d1, d2]) = false := by
      unfold matchRNN
      rw [hrev]
      simp [List.isPrefixOf, (by decide : (('r' : Char) == 'z') = false)]
    simp only [getFirstVolumePath, hbase, hdir, h7zF, hzipF, htake, filepathJoin_dot,
      hzNNT, hfs, hprF, hrNNF]
    simp

theorem gFVP_rule_partRar (fs : List Char → Bool) (name m : List Char)
    (hs : '/' ∉ name) (hmne : m ≠ []) (hm : ∀ c ∈ m, c.isDigit = true)
    (hnp : containsSub name ['.', 'p', 'a', 'r', 't'] = false) :
    getFirstVolumePath fs (name ++ ('.' :: 'p' :: 'a' :: 'r' :: 't' :: (m ++ ['.', 'r', 'a', 'r']))) =
      name ++ ".part1.rar".toList := by
  have hmr : ('/' : Char) ∉ m ++ ['.', 'r', 'a', 'r'] := by
    intro hmem
    rcases List.mem_append.1 hmem with h | h
    · exact nondigit_notin_digits '/' (by decide) m hm h
    · revert h; decide
  have hss : ('/' : Char) ∉ ('.' :: 'p' :: 'a' :: 'r' :: 't' :: (m ++ ['.', 'r', 'a', 'r'])) :=
    slash_notin_cons_ne '.' (by decide) _ (slash_notin_cons_ne 'p' (by decide) _
      (slash_notin_cons_ne 'a' (by decide) _ (slash_notin_cons_ne 'r' (by decide) _
        (slash_notin_cons_ne 't' (by decide) _ hmr))))
  have hp : ('/' : Char) ∉ name ++ ('.' :: 'p' :: 'a' :: 'r' :: 't' :: (m ++ ['.', 'r', 'a', 'r'])) := by
    intro hmem
    rcases List.mem_append.1 hmem with h | h
    · exact hs h
    · exact hss h
  have hbase : filepathBase (name ++ ('.' :: 'p' :: 'a' :: 'r' :: 't' :: (m ++ ['.', 'r', 'a', 'r']))) =
      name ++ ('.' :: 'p' :: 'a' :: 'r' :: 't' :: (m ++ ['.', 'r', 'a', 'r'])) :=
    filepathBase_noslash _ (by simp) hp
  have hdir : filepathDir (name ++ ('.' :: 'p' :: 'a' :: 'r' :: 't' :: (m ++ ['.', 'r', 'a', 'r']))) =
      ['.'] :=
    filepathDir_noslash _ hp
  have hrev : (name ++ ('.' :: 'p' :: 'a' :: 'r' :: 't' :: (m ++ ['.', 'r', 'a', 'r']))).reverse =
      'r' :: 'a' :: 'r' :: '.' :: (m.reverse ++ ('t' :: 'r' :: 'a' :: 'p' :: '.' :: name.reverse)) := by
    simp
  have h7zF : match7zPart (name ++ ('.' :: 'p' :: 'a' :: 'r' :: 't' :: (m ++ ['.', 'r', 'a', 'r']))) =
      false := by
    unfold match7zPart
    rw [hrev]
    simp [(by decide : ('r' : Char).isDigit = false)]
  have hzipF : matchZipNNN (name ++ ('.' :: 'p' :: 'a' :: 'r' :: 't' :: (m ++ ['.', 'r', 'a', 'r']))) =
      false := by
    unfold matchZipNNN
    rw [hrev]
    simp [(by decide : ('r' : Char).isDigit = false)]
  have hzNNF : matchZNN (name ++ ('.' :: 'p' :: 'a' :: 'r' :: 't' :: (m ++ ['.', 'r', 'a', 'r']))) =
      false := by
    unfold matchZNN
    rw [hrev]
    simp [(by decide : ('a' : Char).isDigit = false)]
  have hrddp : revDigitsDotPart (m.reverse ++ ('t' :: 'r' :: 'a' :: 'p' :: '.' :: name.reverse)) =
      true :=
    revDigitsDotPart_true m.reverse (fun he => hmne (by simpa using he))
      (fun c hc => hm c (List.mem_reverse.1 hc)) name.reverse
  have hprT : matchPartRar (name ++ ('.' :: 'p' :: 'a' :: 'r' :: 't' :: (m ++ ['.', 'r', 'a', 'r']))) =
      true := by
    unfold matchPartRar
    rw [hrev]
    simp [List.isPrefixOf, hrddp]
  have htb : takeBeforeFirstSub ".part".toList
      (name ++ ('.' :: 'p' :: 'a' :: 'r' :: 't' :: (m ++ ['.', 'r', 'a', 'r']))) = name := by
    have hlit : ".part".toList = ['.', 'p', 'a', 'r', 't'] := rfl
    rw [hlit]
    exact takeBeforeFirstSub_boundary name hnp (m ++ ['.', 'r', 'a', 'r'])
  simp only [getFirstVolumePath, hbase, hdir, h7zF, hzipF, hzNNF, hprT, htb, filepathJoin_dot]
  simp

theorem gFVP_rule_rNN (fs : List Char → Bool) (name : List Char) (d1 d2 : Char)
    (hs : '/' ∉ name) (hd1 : d1.isDigit = true) (hd2 : d2.isDigit = true) :
    getFirstVolumePath fs (name ++ ['.', 'r', d1, d2]) = name ++ ".rar".toList := by
  have hss : ('/' : Char) ∉ (['.', 'r', d1, d2] : List Char) :=
    slash_notin_cons_ne '.' (by decide) _ (slash_notin_cons_ne 'r' (by decide) _
      (slash_notin_cons_digit d1 hd1 _ (slash_notin_cons_digit d2 hd2 _ slash_notin_nil)))
  have hp : ('/' : Char) ∉ name ++ ['.', 'r', d1, d2] := by
    intro hm
    rcases List.mem_append.1 hm with h | h
    · exact hs h
    · exact hss h
  have hbase : filepathBase (name ++ ['.', 'r', d1, d2]) = name ++ ['.', 'r', d1, d2] :=
    filepathBase_noslash _ (by simp) hp
  have hdir : filepathDir (name ++ ['.', 'r', d1, d2]) = ['.'] :=
    filepathDir_noslash _ hp
  have hrev : (name ++ ['.', 'r', d1, d2]).reverse =
      d2 :: d1 :: 'r' :: '.' :: name.reverse := by
    simp
  have h7zF : match7zPart (name ++ ['.', 'r', d1, d2]) = false := by
    unfold match7zPart
    rw [hrev]
    simp [(by decide : ('r' : Char).isDigit = false)]
  have hzipF : matchZipNNN (name ++ ['.', 'r', d1, d2]) = false := by
    unfold matchZipNNN
    rw [hrev]
    simp [(by decide : ('r' : Char).isDigit = false)]
  have hzNNF : matchZNN (name ++ ['.', 'r', d1, d2]) = false := by
    unfold matchZNN
    rw [hrev]
    simp [List.isPrefixOf, (by decide : (('z' : Char) == 'r') = false)]
  have hprF : matchPartRar (name ++ ['.', 'r', d1, d2]) = false := by
    unfold matchPartRar
    rw [hrev]
    simp [List.isPrefixOf, beq_digit_false 'r' d2 hd2 (by decide)]
  have hrNNT : matchRNN (name ++ ['.', 'r', d1, d2]) = true := by
    unfold matchRNN
    rw [hrev]
    simp [List.isPrefixOf, hd1, hd2]
  have hlen4 : (name ++ ['.', 'r', d1, d2]).length - 4 = name.length := by
    simp [List.length_append]
  have htake : (name ++ ['.', 'r', d1, d2]).take
      ((name ++ ['.', 'r', d1, d2]).length - 4) = name := by
    rw [hlen4]
    exact List.take_left name _
  simp only [getFirstVolumePath, hbase, hdir, h7zF, hzipF, hzNNF, hprF, hrNNT, htake,
    filepathJoin_dot]
  simp

theorem gFVP_rule_default (fs : List Char → Bool) (p : List Char)
    (h1 : match7zPart (filepathBase p) = false)
    (h2 : matchZipNNN (filepathBase p) = false)
    (h3 : matchZNN (filepathBase p) = false)
    (h4 : matchPartRar (filepathBase p) = false)
    (h5 : matchRNN (filepathBase p) = false) :
    getFirstVolumePath fs p = p := by
  simp only [getFirstVolumePath]
  rw [h1, h2, h3, h4, h5]
  simp

/-- C5: getFirstVolumePath obeys the family rules.  For slash-free input
names: a 7z numbered part maps to the 001 volume unconditionally; a zip
dotted-number part maps to the 001 volume exactly when that file exists
and is otherwise returned unchanged; a legacy zip part maps to the plain
zip exactly when it exists and is otherwise returned unchanged; a rar
partN volume (the name holding no earlier .part) maps to part1
unconditionally; a legacy rar part maps to the plain rar unconditionally;
and every path matching none of the five volume patterns, which includes
a bare zip whether or not a z01 sibling exists, is returned unchanged, so
the function is total and never fails. -/
theorem getFirstVolumePath_family_rules (fs : List Char → Bool) :
    (∀ (name : List Char) (d1 d2 d3 : Char), '/' ∉ name →
      d1.isDigit = true → d2.isDigit = true → d3.isDigit = true →
      getFirstVolumePath fs (name ++ ['.', '7', 'z', '.', d1, d2, d3]) =
        name ++ ".7z.001".toList) ∧
    (∀ (name : List Char) (d1 d2 d3 : Char), '/' ∉ name →
      d1.isDigit = true → d2.isDigit = true → d3.isDigit = true →
      fs (name ++ ".zip.001".toList) = true →
      getFirstVolumePath fs (name ++ ['.', 'z', 'i', 'p', '.', d1, d2, d3]) =
        name ++ ".zip.001".toList) ∧
    (∀ (name : List Char) (d1 d2 d3 : Char), '/' ∉ name →
      d1.isDigit = true → d2.isDigit = true → d3.isDigit = true →
      fs (name ++ ".zip.001".toList) = false →
      getFirstVolumePath fs (name ++ ['.', 'z', 'i', 'p', '.', d1, d2, d3]) =
        name ++ ['.', 'z', 'i', 'p', '.', d1, d2, d3]) ∧
    (∀ (name : List Char) (d1 d2 : Char), '/' ∉ name →
      d1.isDigit = true → d2.isDigit = true →
      fs (name ++ ".zip".toList) = true →
      getFirstVolumePath fs (name ++ ['.', 'z', d1, d2]) = name ++ ".zip".toList) ∧
    (∀ (name : List Char) (d1 d2 : Char), '/' ∉ name →
      d1.isDigit = true → d2.isDigit = true →
      fs (name ++ ".zip".toList) = false →
      getFirstVolumePath fs (name ++ ['.', 'z', d1, d2]) = name ++ ['.', 'z', d1, d2]) ∧
    (∀ (name m : List Char), '/' ∉ name → m ≠ [] → (∀ c ∈ m, c.isDigit = true) →
      containsSub name ['.', 'p', 'a', 'r', 't'] = false →
      getFirstVolumePath fs (name ++ ('.' :: 'p' :: 'a' :: 'r' :: 't' :: (m ++ ['.', 'r', 'a', 'r']))) =
        name ++ ".part1.rar".toList) ∧
    (∀ (name : List Char) (d1 d2 : Char), '/' ∉ name →
      d1.isDigit = true → d2.isDigit = true →
      getFirstVolumePath fs (name ++ ['.', 'r', d1, d2]) = name ++ ".rar".toList) ∧
    (∀ p : List Char,
      match7zPart (filepathBase p) = false → matchZipNNN (filepathBase p) = false →
      matchZNN (filepathBase p) = false → matchPartRar (filepathBase p) = false →
      matchRNN (filepathBase p) = false →
      getFirstVolumePath fs p = p) := by
  refine ⟨?_, ?_, ?_, ?_, ?_, ?_, ?_, ?_⟩
  · intro name d1 d2 d3 hs h1 h2 h3
    exact gFVP_rule_7z fs name d1 d2 d3 hs h1 h2 h3
  · intro name d1 d2 d3 hs h1 h2 h3 hfs
    exact (gFVP_rule_zipNNN fs name d1 d2 d3 hs h1 h2 h3).1 hfs
  · intro name d1 d2 d3 hs h1 h2 h3 hfs
    exact (gFVP_rule_zipNNN fs name d1 d2 d3 hs h1 h2 h3).2 hfs
  · intro name d1 d2 hs h1 h2 hfs
    exact (gFVP_rule_zNN fs name d1 d2 hs h1 h2).1 hfs
  · intro name d1 d2 hs h1 h2 hfs
    exact (gFVP_rule_zNN fs name d1 d2 hs h1 h2).2 hfs
  · intro name m hs hmne hm hnp
    exact gFVP_rule_partRar fs name m hs hmne hm hnp
  · intro name d1 d2 hs h1 h2
    exact gFVP_rule_rNN fs name d1 d2 hs h1 h2
  · intro p h1 h2 h3 h4 h5
    exact gFVP_rule_default fs p h1 h2 h3 h4 h5

/-- Witness for C5: the spec examples, on a filesystem where no sibling
volumes exist: archive.7z.005 resolves to archive.7z.001,
archive.part3.rar resolves to archive.part1.rar, and plain.zip (no z01
sibling) is unchanged. -/
theorem getFirstVolumePath_family_rules_witness :
    getFirstVolumePath (fun _ => false) "archive.7z.005".toList = "archive.7z.001".toList ∧
    getFirstVolumePath (fun _ => false) "archive.part3.rar".toList = "archive.part1.rar".toList ∧
    getFirstVolumePath (fun _ => false) "plain.zip".toList = "plain.zip".toList := by
  have h := getFirstVolumePath_family_rules (fun _ => false)
  refine ⟨?_, ?_, ?_⟩
  · have h1 := h.1 "archive".toList '0' '0' '5' (by decide) (by decide) (by decide) (by decide)
    have e1 : "archive".toList ++ (['.', '7', 'z', '.', '0', '0', '5'] : List Char) =
        "archive.7z.005".toList := by decide
    have e2 : "archive".toList ++ ".7z.001".toList = "archive.7z.001".toList := by decide
    rw [e1, e2] at h1
    exact h1
  · have h1 := h.2.2.2.2.2.1 "archive".toList ['3'] (by decide) (by decide) (by decide) (by decide)
    have e1 : "archive".toList ++
        ('.' :: 'p' :: 'a' :: 'r' :: 't' :: ((['3'] : List Char) ++ ['.', 'r', 'a', 'r'])) =
        "archive.part3.rar".toList := by decide
    have e2 : "archive".toList ++ ".part1.rar".toList = "archive.part1.rar".toList := by decide
    rw [e1, e2] at h1
    exact h1
  · exact h.2.2.2.2.2.2.2 "plain.zip".toList (by decide) (by decide) (by decide) (by decide)
      (by decide)
